import Mathlib

/-!
# Verification of the `office_gym` notebook's Q-learning core

Shallow embedding of the Python code in `src/content/office_gym.ipynb`
(the `QLearningAgent` class and the episode/training loops), together with
a model of the `OfficeEnv` environment of `office_gym.py`, which is not
part of the repository sources and is therefore modelled from the spec.

Real-valued quantities (`numpy` float64 in the source) are embedded as
rationals `ℚ`; machine floating point rounding is not modelled, the claims
under verification are exact algebraic/structural properties.
The numpy pseudo-random generator `np.random.default_rng` is modelled as a
stream of uniform samples in `[0,1)` together with a position counter:
each call to `rng.uniform(0, 1)` or `rng.choice(...)` consumes one sample
and advances the position.
-/

/-- Model of `np.random.default_rng(seed)`: a stream of uniform samples in
`[0,1)` and a cursor.  Every draw reads the sample at the cursor and
advances the cursor by one. -/
structure RNG where
  stream : ℕ → ℚ
  pos : ℕ

/-- One draw from the generator: the sample at the current position, and the
advanced generator.  Models `rng.uniform(0, 1)`. -/
def RNG.next (r : RNG) : ℚ × RNG :=
  (r.stream r.pos, ⟨r.stream, r.pos + 1⟩)

/-- `np.max` on a 1-D array, embedded on lists.  `np.max` raises on an empty
array; the `[]` case is given the junk value `0` and every theorem that
uses it supplies a nonempty row. -/
def npMax : List ℚ → ℚ
  | [] => 0
  | x :: xs => xs.foldl max x

/-- Scanning loop of `np.argmax`: `i` is the index of the head of `xs` in the
full array, `bi`/`bv` the index and value of the best element seen so far.
A later element replaces the best only when strictly greater, so the first
occurrence of the maximum wins, as in numpy. -/
def argmaxAux : List ℚ → ℕ → ℕ → ℚ → ℕ
  | [], _, bi, _ => bi
  | x :: xs, i, bi, bv => if bv < x then argmaxAux xs (i + 1) i x else argmaxAux xs (i + 1) bi bv

/-- `np.argmax` on a 1-D array: index of the first occurrence of the maximum.
`np.argmax` raises on an empty array; the `[]` case is given the junk
value `0`. -/
def npArgmax : List ℚ → ℕ
  | [] => 0
  | x :: xs => argmaxAux xs 1 0 x

/-- The `QLearningAgent` class of the notebook.  The Python object is mutable;
the embedding passes the whole agent state explicitly. -/
structure QLearningAgent where
  actions : List ℕ
  qtable : List (List ℚ)
  learning_rate : ℚ
  discount_factor : ℚ
  rng : RNG

namespace QLearningAgent

/-- `QLearningAgent.__init__(nstates, actions, learning_rate, discount_factor, seed)`:
the Q-table is `np.zeros((nstates, len(actions)))`; the seed argument is
embedded as the generator state it produces. -/
def init (nstates : ℕ) (actions : List ℕ) (learning_rate discount_factor : ℚ)
    (rng : RNG) : QLearningAgent :=
  { actions := actions
    qtable := List.replicate nstates (List.replicate actions.length 0)
    learning_rate := learning_rate
    discount_factor := discount_factor
    rng := rng }

/-- `QLearningAgent.get_action(state, epsilon)`:
draw `u = rng.uniform(0, 1)`; if `u < epsilon`, return `rng.choice(actions)`
(a uniformly chosen element of `actions`, consuming one more sample `v` and
selecting index `⌊v * len(actions)⌋`), else return `np.argmax(qtable[state])`.
Returns the chosen action together with the agent state after the call (only
the generator differs). -/
def get_action (ag : QLearningAgent) (state : ℕ) (epsilon : ℚ) : ℕ × QLearningAgent :=
  let (u, rng1) := ag.rng.next
  if u < epsilon then
    let (v, rng2) := rng1.next
    let idx := (⌊v * (ag.actions.length : ℚ)⌋).toNat
    (ag.actions.getD idx 0, { ag with rng := rng2 })
  else
    (npArgmax (ag.qtable.getD state []), { ag with rng := rng1 })

/-- `QLearningAgent.update_qtable(current_state, next_state, action, reward)`:
`old = qtable[current_state, action]`;
`new = old + learning_rate * (reward + discount_factor * np.max(qtable[next_state]) - old)`;
`qtable[current_state, action] = new`.  The Python method returns `None`;
the embedding returns the agent whose only changed field is the Q-table. -/
def update_qtable (ag : QLearningAgent) (current_state next_state action : ℕ)
    (reward : ℚ) : QLearningAgent :=
  let old_qvalue := (ag.qtable.getD current_state []).getD action 0
  let new_qvalue := old_qvalue + ag.learning_rate *
    (reward + ag.discount_factor * npMax (ag.qtable.getD next_state []) - old_qvalue)
  { ag with qtable :=
      ag.qtable.set current_state ((ag.qtable.getD current_state []).set action new_qvalue) }

end QLearningAgent

/-!
## Environment model

`office_gym.py` (the `OfficeEnv` class and the `play_episode` helper) is not
among the repository's source files; only the notebook that calls it is.
The definitions below are therefore modelled from the spec (§4.1, §3).
-/

/-- Modelled from the spec: kinds of grid cells — `free`, `wall`, `start`,
`goal` with a success probability, `hazard`. -/
inductive CellKind where
  | free : CellKind
  | wall : CellKind
  | start : CellKind
  | goal : ℚ → CellKind
  | hazard : CellKind
deriving DecidableEq

/-- Modelled from the spec: a grid cell is a kind plus an orthogonal
`slippery` flag. -/
structure Cell where
  kind : CellKind
  slippery : Bool
deriving DecidableEq

/-- Modelled from the spec: the immutable grid layout.  Cells are stored
row-major; any coordinate outside the stored rows reads as a wall, which
realizes the spec's rule that the grid boundary behaves like a wall
("bump"). -/
structure Grid where
  width : ℕ
  cells : List (List Cell)
  startPos : ℕ × ℕ
deriving DecidableEq

/-- Cell lookup, out-of-range coordinates read as a (non-slippery) wall. -/
def Grid.cellAt (g : Grid) (p : ℕ × ℕ) : Cell :=
  (g.cells.getD p.2 []).getD p.1 ⟨CellKind.wall, false⟩

/-- Modelled from the spec: the state index of a coordinate.  The spec only
requires an integer index injective on non-wall cells; row-major rank is
used. -/
def Grid.stateIndex (g : Grid) (p : ℕ × ℕ) : ℕ :=
  p.2 * g.width + p.1

/-- Modelled from the spec: errors surfaced by the environment. -/
inductive EnvError where
  | invalidAction : EnvError
  | environmentNotInitialized : EnvError
deriving DecidableEq

/-- Modelled from the spec: the `OfficeEnv` environment state.  `state` is
`none` before the first `reset`, in which case `step` fails with
`environmentNotInitialized`. -/
structure OfficeEnv where
  grid : Grid
  rng : RNG
  state : Option (ℕ × ℕ)

/-- Modelled from the spec: deterministic reseeding of the environment's
generator from an integer seed.  The spec fixes no concrete PRNG, only that
seeding is a deterministic function of the seed; a multiplicative-hash
stream with values in `[0,1)` stands in for it. -/
def seedStream (seed : ℕ) : ℕ → ℚ :=
  fun n => (((seed + 1) * (n + 1) * 48271) % 2147483647 : ℕ) / 2147483647

/-- Modelled from the spec: `OfficeEnv.reset(seed)` reseeds the internal
generator deterministically from `seed`, sets the current state to the start
cell, and returns that state (here: its index, plus the updated
environment).  The unseeded call (fresh entropy) is outside the model. -/
def OfficeEnv.reset (env : OfficeEnv) (seed : ℕ) : ℕ × OfficeEnv :=
  (env.grid.stateIndex env.grid.startPos,
   { env with rng := ⟨seedStream seed, 0⟩, state := some env.grid.startPos })

/-- Modelled from the spec: the intended destination coordinate for an action
(0 = up, 1 = down, 2 = left, 3 = right); `none` when the move leaves the
grid boundary. -/
def intendedDest (p : ℕ × ℕ) (action : ℕ) : Option (ℕ × ℕ) :=
  if action = 0 then (if p.2 = 0 then none else some (p.1, p.2 - 1))
  else if action = 1 then some (p.1, p.2 + 1)
  else if action = 2 then (if p.1 = 0 then none else some (p.1 - 1, p.2))
  else some (p.1 + 1, p.2)

/-- Modelled from the spec: resolve a movement direction through the
wall/boundary rule — a destination that is a wall or outside the grid
collapses to the current cell. -/
def resolveMove (g : Grid) (p : ℕ × ℕ) (action : ℕ) : ℕ × ℕ :=
  match intendedDest p action with
  | none => p
  | some q => if (g.cellAt q).kind = CellKind.wall then p else q

/-- Modelled from the spec: the two directions perpendicular to an action. -/
def perpDirs (action : ℕ) : ℕ × ℕ :=
  if action = 0 ∨ action = 1 then (2, 3) else (0, 1)

/-- Modelled from the spec: on a slippery cell the actual direction is the
intended one with probability 1/3 and each perpendicular one with
probability 1/3, decided by one uniform draw. -/
def slipDir (action : ℕ) (u : ℚ) : ℕ :=
  if u < 1 / 3 then action
  else if u < 2 / 3 then (perpDirs action).1
  else (perpDirs action).2

/-- Modelled from the spec: `OfficeEnv.step(action)`.
Fails with `invalidAction` for an action outside `{0,1,2,3}` and with
`environmentNotInitialized` before the first `reset`.  Otherwise: resolve
the move (resampling the direction first when the current cell is
slippery), then reward/termination from the resulting cell kind — hazard:
−10, done, internal state back to start; goal `p`: one uniform draw decides
success (+10, done) or failure (−10, done, internal state back to start);
otherwise −1, not done, state moves.  Returns
`(next_state, reward, done)` (the `info` dict carries no required fields)
plus the post-call environment. -/
def OfficeEnv.step (env : OfficeEnv) (action : ℕ) :
    Except EnvError ((ℕ × ℚ × Bool) × OfficeEnv) :=
  if action ≥ 4 then .error .invalidAction
  else
    match env.state with
    | none => .error .environmentNotInitialized
    | some p =>
      let cur := env.grid.cellAt p
      let (dir, rng1) :=
        if cur.slippery then
          let (u, r) := env.rng.next
          (slipDir action u, r)
        else (action, env.rng)
      let q := resolveMove env.grid p dir
      let idx := env.grid.stateIndex q
      match (env.grid.cellAt q).kind with
      | CellKind.hazard =>
          .ok ((idx, -10, true), { env with rng := rng1, state := some env.grid.startPos })
      | CellKind.goal prob =>
          let (u, rng2) := rng1.next
          if u < prob then
            .ok ((idx, 10, true), { env with rng := rng2, state := some q })
          else
            .ok ((idx, -10, true), { env with rng := rng2, state := some env.grid.startPos })
      | _ =>
          .ok ((idx, -1, false), { env with rng := rng1, state := some q })

/-- Feed a fixed action sequence to the environment, recording the
`(state, reward, done)` trace; an error ends the trace with the error. -/
def OfficeEnv.runTrace (env : OfficeEnv) : List ℕ → List (Except EnvError (ℕ × ℚ × Bool))
  | [] => []
  | a :: as =>
    match env.step a with
    | .error e => [.error e]
    | .ok (out, env') => .ok out :: env'.runTrace as

/-!
## Episode loops

The notebook's random-search loop and both training loops all have the shape
`while not done: action = ...; state, reward, done, info = env.step(action);
...` — no step cap.  The loop is embedded with an explicit fuel argument as a
modelling device for the unbounded `while`: the Python loop terminates
exactly when some fuel value makes the embedded loop report `done = true`.
The environment is abstracted to its interface: an integer state, a step
function returning `(next_state, reward, done)`, and a policy choosing the
action (the agent's `get_action` with the current exploration rate). -/

/-- The notebook's episode loop body iterated `fuel` times or until the
environment reports done, accumulating reward; returns the final state, the
accumulated reward and whether the loop exited because of `done`. -/
def episodeLoop (stepFn : ℕ → ℕ → ℕ × ℚ × Bool) (policy : ℕ → ℕ) :
    ℕ → ℕ → ℚ → ℕ × ℚ × Bool
  | 0, s, acc => (s, acc, false)
  | fuel + 1, s, acc =>
    let out := stepFn s (policy s)
    if out.2.2 then (out.1, acc + out.2.1, true)
    else episodeLoop stepFn policy fuel out.1 (acc + out.2.1)

/-- The state reached after `n` iterations of the loop body, ignoring the
done flag (the trajectory the loop follows as long as done stays false). -/
def trajState (stepFn : ℕ → ℕ → ℕ × ℚ × Bool) (policy : ℕ → ℕ) : ℕ → ℕ → ℕ
  | s, 0 => s
  | s, n + 1 => trajState stepFn policy (stepFn s (policy s)).1 n

/-- The done flag produced by the `(n+1)`-st iteration of the loop body along
the trajectory from `s`. -/
def doneAt (stepFn : ℕ → ℕ → ℕ × ℚ × Bool) (policy : ℕ → ℕ) (s n : ℕ) : Bool :=
  (stepFn (trajState stepFn policy s n) (policy (trajState stepFn policy s n))).2.2

/-- One pass of the notebook's training-loop body (both the easy-mode and
hard-mode loops): `action = agent.get_action(state, epsilon)`;
`next_state, reward, done, info = env.step(action)`;
`agent.update_qtable(state, next_state, action, reward)`; `state = next_state`.
`update_qtable` is called unconditionally, also when `done` is true. -/
def trainingStep (ag : QLearningAgent) (state : ℕ) (epsilon : ℚ)
    (stepFn : ℕ → ℕ → ℕ × ℚ × Bool) : QLearningAgent × ℕ × Bool :=
  let ga := ag.get_action state epsilon
  let out := stepFn state ga.1
  ((ga.2).update_qtable state out.1 ga.1 out.2.1, out.1, out.2.2)

/-- Operations a caller can perform on the agent, for stating invariants over
arbitrary call sequences. -/
inductive AgentOp where
  | act : ℕ → ℚ → AgentOp
  | upd : ℕ → ℕ → ℕ → ℚ → AgentOp

/-- Apply one operation to the agent. -/
def applyOp (ag : QLearningAgent) : AgentOp → QLearningAgent
  | .act s eps => (ag.get_action s eps).2
  | .upd s s' a r => ag.update_qtable s s' a r

/-- Apply a sequence of operations to the agent. -/
def applyOps (ag : QLearningAgent) (ops : List AgentOp) : QLearningAgent :=
  ops.foldl applyOp ag

/-- A Q-table with `m` rows, each of length `n`. -/
def hasShape (q : List (List ℚ)) (m n : ℕ) : Prop :=
  q.length = m ∧ ∀ row ∈ q, row.length = n

/-!
## Concrete test data (used by the witness theorems)
-/

/-- A concrete generator: the constant stream 1/2. -/
def testRng : RNG :=
  ⟨fun _ => 1 / 2, 0⟩

/-- A concrete agent with two states and two actions. -/
def testAgent : QLearningAgent :=
  { actions := [0, 1]
    qtable := [[1, 2], [3, 4]]
    learning_rate := 1 / 2
    discount_factor := 1 / 3
    rng := testRng }

/-- A concrete 2×2 grid. -/
def testGrid : Grid :=
  { width := 2
    cells := [[⟨CellKind.start, false⟩, ⟨CellKind.free, true⟩],
              [⟨CellKind.hazard, false⟩, ⟨CellKind.goal (1 / 2), false⟩]]
    startPos := (0, 0) }

/-- A concrete environment over `testGrid`, not yet reset. -/
def testEnv1 : OfficeEnv :=
  ⟨testGrid, ⟨fun _ => 0, 5⟩, none⟩

/-- A second environment over `testGrid` with a different generator and
current state. -/
def testEnv2 : OfficeEnv :=
  ⟨testGrid, ⟨fun _ => 1 / 3, 0⟩, some (1, 1)⟩

/-- An abstract environment whose episode ends when the state counter
reaches 1: `step s a = (s+1, −1, s = 1)`. -/
def countStep : ℕ → ℕ → ℕ × ℚ × Bool :=
  fun s _ => (s + 1, -1, s = 1)

/-- An abstract environment that never reports done: the state never moves
and every step costs −1. -/
def stuckStep : ℕ → ℕ → ℕ × ℚ × Bool :=
  fun s _ => (s, -1, false)

/-!
## Helper lemmas on lists
-/

/-- `getD` after `set` at the written index. -/
theorem getD_set_self_of_lt {l : List ℚ} {i : ℕ} (x d : ℚ) (h : i < l.length) :
    (l.set i x).getD i d = x := by
  rw [List.getD_eq_getElem _ _ (by simpa using h)]
  simp [List.getElem_set_self]

/-- `getD` after `set` at a different index. -/
theorem getD_set_ne {l : List ℚ} {i j : ℕ} (x d : ℚ) (h : i ≠ j) :
    (l.set i x).getD j d = l.getD j d := by
  rcases Nat.lt_or_ge j l.length with hj | hj
  · rw [List.getD_eq_getElem _ _ (by simpa using hj), List.getD_eq_getElem _ _ hj,
      List.getElem_set_ne h]
  · rw [List.getD_eq_default _ _ (by simpa using hj), List.getD_eq_default _ _ hj]

/-- Writing back the value already stored leaves the list unchanged. -/
theorem set_getD_self {l : List ℚ} {i : ℕ} (d : ℚ) (h : i < l.length) :
    l.set i (l.getD i d) = l := by
  rw [List.getD_eq_getElem _ _ h]
  ext1 j
  simp only [List.getElem?_set]
  split
  · next hj =>
      subst hj
      simp [List.getElem?_eq_getElem h, h]
  · rfl

/-- Row-level variants of the same lemmas, for `List (List ℚ)`. -/
theorem getD_set_self_of_lt_row {l : List (List ℚ)} {i : ℕ} (x d : List ℚ)
    (h : i < l.length) : (l.set i x).getD i d = x := by
  rw [List.getD_eq_getElem _ _ (by simpa using h)]
  simp [List.getElem_set_self]

/-- `getD` after `set` at a different row index. -/
theorem getD_set_ne_row {l : List (List ℚ)} {i j : ℕ} (x d : List ℚ) (h : i ≠ j) :
    (l.set i x).getD j d = l.getD j d := by
  rcases Nat.lt_or_ge j l.length with hj | hj
  · rw [List.getD_eq_getElem _ _ (by simpa using hj), List.getD_eq_getElem _ _ hj,
      List.getElem_set_ne h]
  · rw [List.getD_eq_default _ _ (by simpa using hj), List.getD_eq_default _ _ hj]

/-- Writing back the row already stored leaves the table unchanged. -/
theorem set_getD_self_row {l : List (List ℚ)} {i : ℕ} (d : List ℚ) (h : i < l.length) :
    l.set i (l.getD i d) = l := by
  rw [List.getD_eq_getElem _ _ h]
  ext1 j
  simp only [List.getElem?_set]
  split
  · next hj =>
      subst hj
      simp [List.getElem?_eq_getElem h, h]
  · rfl

/-!
## Basic facts about the agent operations
-/

/-- `get_action` only rewrites the generator field. -/
theorem get_action_fields (ag : QLearningAgent) (state : ℕ) (epsilon : ℚ) :
    ((ag.get_action state epsilon).2).qtable = ag.qtable ∧
    ((ag.get_action state epsilon).2).actions = ag.actions ∧
    ((ag.get_action state epsilon).2).learning_rate = ag.learning_rate ∧
    ((ag.get_action state epsilon).2).discount_factor = ag.discount_factor := by
  unfold QLearningAgent.get_action RNG.next
  by_cases h : ag.rng.stream ag.rng.pos < epsilon <;> simp [h]

/-- `update_qtable` only rewrites the Q-table field. -/
theorem update_qtable_fields (ag : QLearningAgent) (s s' a : ℕ) (r : ℚ) :
    ((ag.update_qtable s s' a r)).actions = ag.actions ∧
    ((ag.update_qtable s s' a r)).learning_rate = ag.learning_rate ∧
    ((ag.update_qtable s s' a r)).discount_factor = ag.discount_factor ∧
    ((ag.update_qtable s s' a r)).rng = ag.rng :=
  ⟨rfl, rfl, rfl, rfl⟩

/-- The Q-table produced by `update_qtable`, with the `let`s of the
definition expanded. -/
theorem update_qtable_qtable (ag : QLearningAgent) (s s' a : ℕ) (r : ℚ) :
    (ag.update_qtable s s' a r).qtable
      = ag.qtable.set s ((ag.qtable.getD s []).set a
          ((ag.qtable.getD s []).getD a 0 + ag.learning_rate *
            (r + ag.discount_factor * npMax (ag.qtable.getD s' [])
              - (ag.qtable.getD s []).getD a 0))) :=
  rfl

/-- C1: `update_qtable(s, s', a, r)` replaces the entry `Q(s,a)` with
`Q(s,a) + α·(r + γ·max_a' Q(s',a') − Q(s,a))`, where α and γ are the learning
rate and discount factor fixed at construction, and mutates nothing else of
the agent (the Python method returns `None`). -/
theorem update_qtable_formula (ag : QLearningAgent) (s s' a : ℕ) (r : ℚ)
    (hs : s < ag.qtable.length) (ha : a < (ag.qtable.getD s []).length) :
    ((ag.update_qtable s s' a r).qtable.getD s []).getD a 0
      = (ag.qtable.getD s []).getD a 0
        + ag.learning_rate * (r + ag.discount_factor * npMax (ag.qtable.getD s' [])
            - (ag.qtable.getD s []).getD a 0) ∧
    (ag.update_qtable s s' a r).actions = ag.actions ∧
    (ag.update_qtable s s' a r).learning_rate = ag.learning_rate ∧
    (ag.update_qtable s s' a r).discount_factor = ag.discount_factor ∧
    (ag.update_qtable s s' a r).rng = ag.rng := by
  refine ⟨?_, rfl, rfl, rfl, rfl⟩
  rw [update_qtable_qtable, getD_set_self_of_lt_row _ _ hs, getD_set_self_of_lt _ _ ha]

/-- Witness for C1 at a concrete agent and input. -/
theorem update_qtable_formula_witness :
    0 < testAgent.qtable.length ∧ 0 < (testAgent.qtable.getD 0 []).length ∧
    ((testAgent.update_qtable 0 1 0 2).qtable.getD 0 []).getD 0 0
      = (testAgent.qtable.getD 0 []).getD 0 0
        + testAgent.learning_rate * (2 + testAgent.discount_factor *
            npMax (testAgent.qtable.getD 1 []) - (testAgent.qtable.getD 0 []).getD 0 0) :=
  ⟨by decide, by decide,
    (update_qtable_formula testAgent 0 1 0 2 (by decide) (by decide)).1⟩

/-- C7: `update_qtable` modifies only the addressed cell `(s, a)`: every
other row, every other entry of row `s`, the table dimensions, the learning
rate and the discount factor are unchanged. -/
theorem update_qtable_frame (ag : QLearningAgent) (s s' a : ℕ) (r : ℚ)
    (hs : s < ag.qtable.length) (ha : a < (ag.qtable.getD s []).length) :
    (ag.update_qtable s s' a r).qtable.length = ag.qtable.length ∧
    (∀ j, j ≠ s → (ag.update_qtable s s' a r).qtable.getD j [] = ag.qtable.getD j []) ∧
    ((ag.update_qtable s s' a r).qtable.getD s []).length
      = (ag.qtable.getD s []).length ∧
    (∀ b, b ≠ a → ((ag.update_qtable s s' a r).qtable.getD s []).getD b 0
        = (ag.qtable.getD s []).getD b 0) ∧
    (ag.update_qtable s s' a r).learning_rate = ag.learning_rate ∧
    (ag.update_qtable s s' a r).discount_factor = ag.discount_factor := by
  refine ⟨?_, ?_, ?_, ?_, rfl, rfl⟩
  · rw [update_qtable_qtable]; exact List.length_set ..
  · intro j hj
    rw [update_qtable_qtable, getD_set_ne_row _ _ (fun h => hj h.symm)]
  · rw [update_qtable_qtable, getD_set_self_of_lt_row _ _ hs]
    exact List.length_set ..
  · intro b hb
    rw [update_qtable_qtable, getD_set_self_of_lt_row _ _ hs,
      getD_set_ne _ _ (fun h => hb h.symm)]

/-- Witness for C7 at a concrete agent and input. -/
theorem update_qtable_frame_witness :
    0 < testAgent.qtable.length ∧ 0 < (testAgent.qtable.getD 0 []).length ∧
    ((testAgent.update_qtable 0 1 0 2).qtable.getD 0 []).getD 1 0
      = (testAgent.qtable.getD 0 []).getD 1 0 :=
  ⟨by decide, by decide,
    (update_qtable_frame testAgent 0 1 0 2 (by decide) (by decide)).2.2.2.1 1
      (by decide)⟩

/-- C9: Bellman-consistent entries are fixed points: whenever
`r + γ·max_a' Q(s',a') = Q(s,a)`, the call `update_qtable(s, s', a, r)`
leaves the whole agent — in particular the entire Q-table — unchanged, for
any learning rate. -/
theorem update_qtable_fixed_point (ag : QLearningAgent) (s s' a : ℕ) (r : ℚ)
    (hs : s < ag.qtable.length) (ha : a < (ag.qtable.getD s []).length)
    (hfix : r + ag.discount_factor * npMax (ag.qtable.getD s' [])
      = (ag.qtable.getD s []).getD a 0) :
    ag.update_qtable s s' a r = ag := by
  have hval : (ag.qtable.getD s []).getD a 0 + ag.learning_rate *
      (r + ag.discount_factor * npMax (ag.qtable.getD s' [])
        - (ag.qtable.getD s []).getD a 0) = (ag.qtable.getD s []).getD a 0 := by
    rw [hfix]; ring
  have h1 : ag.update_qtable s s' a r
      = { ag with qtable := ag.qtable.set s ((ag.qtable.getD s []).set a
          ((ag.qtable.getD s []).getD a 0)) } := by
    have h0 : ag.update_qtable s s' a r
        = { ag with qtable := (ag.update_qtable s s' a r).qtable } := rfl
    rw [h0, update_qtable_qtable, hval]
  rw [h1, set_getD_self _ ha, set_getD_self_row _ hs]

/-- Witness for C9 at a concrete agent and input. -/
theorem update_qtable_fixed_point_witness :
    0 < testAgent.qtable.length ∧ 0 < (testAgent.qtable.getD 0 []).length ∧
    ((-1 : ℚ) / 3) + testAgent.discount_factor * npMax (testAgent.qtable.getD 1 [])
      = (testAgent.qtable.getD 0 []).getD 0 0 ∧
    testAgent.update_qtable 0 1 0 (-1 / 3) = testAgent :=
  ⟨by decide, by decide, by norm_num [testAgent, npMax],
    update_qtable_fixed_point testAgent 0 1 0 (-1 / 3) (by decide) (by decide)
      (by norm_num [testAgent, npMax])⟩

/-- C8: `get_action` never modifies the Q-table, the learning rate, the
discount factor or the action set; the only field it changes is the random
generator, whose cursor advances by 1 in the exploitation branch (the
uniform draw happens even when `epsilon = 0`) and by 2 in the exploration
branch — in particular it advances on every call. -/
theorem get_action_frame (ag : QLearningAgent) (state : ℕ) (epsilon : ℚ) :
    ((ag.get_action state epsilon).2).qtable = ag.qtable ∧
    ((ag.get_action state epsilon).2).learning_rate = ag.learning_rate ∧
    ((ag.get_action state epsilon).2).discount_factor = ag.discount_factor ∧
    ((ag.get_action state epsilon).2).actions = ag.actions ∧
    ((ag.get_action state epsilon).2).rng.stream = ag.rng.stream ∧
    ((ag.get_action state epsilon).2).rng.pos
      = ag.rng.pos + (if ag.rng.stream ag.rng.pos < epsilon then 2 else 1) ∧
    ag.rng.pos < ((ag.get_action state epsilon).2).rng.pos := by
  unfold QLearningAgent.get_action RNG.next
  by_cases h : ag.rng.stream ag.rng.pos < epsilon <;> simp [h] <;> omega

/-- One agent operation preserves the Q-table's shape. -/
theorem hasShape_applyOp (ag : QLearningAgent) (m n : ℕ) (op : AgentOp)
    (h : hasShape ag.qtable m n) : hasShape (applyOp ag op).qtable m n := by
  cases op with
  | act s eps =>
      show hasShape ((ag.get_action s eps).2).qtable m n
      rw [(get_action_fields ag s eps).1]
      exact h
  | upd s s' a r =>
      obtain ⟨hlen, hrow⟩ := h
      show hasShape ((ag.update_qtable s s' a r)).qtable m n
      rw [update_qtable_qtable]
      by_cases hs : s < ag.qtable.length
      · refine ⟨by simpa using hlen, ?_⟩
        intro row hmem
        rcases List.mem_or_eq_of_mem_set hmem with hmem' | heq
        · exact hrow row hmem'
        · subst heq
          rw [List.length_set, List.getD_eq_getElem _ _ hs]
          exact hrow _ (List.getElem_mem hs)
      · rw [List.set_eq_of_length_le (Nat.le_of_not_lt hs)]
        exact ⟨hlen, hrow⟩

/-- A sequence of agent operations preserves the Q-table's shape. -/
theorem hasShape_applyOps (ag : QLearningAgent) (m n : ℕ) (ops : List AgentOp)
    (h : hasShape ag.qtable m n) : hasShape (applyOps ag ops).qtable m n := by
  induction ops generalizing ag with
  | nil => exact h
  | cons op ops ih => exact ih (applyOp ag op) (hasShape_applyOp ag m n op h)

/-- C6: at construction the Q-table is an `nstates × |actions|` table of
zeros, and after any sequence of `get_action` and `update_qtable` calls it
still has dimensions `nstates × |actions|`. -/
theorem qtable_shape_invariant (nstates : ℕ) (actions : List ℕ)
    (lr df : ℚ) (rng : RNG) (ops : List AgentOp) :
    hasShape (QLearningAgent.init nstates actions lr df rng).qtable
      nstates actions.length ∧
    (∀ row ∈ (QLearningAgent.init nstates actions lr df rng).qtable,
      ∀ x ∈ row, x = 0) ∧
    hasShape (applyOps (QLearningAgent.init nstates actions lr df rng) ops).qtable
      nstates actions.length := by
  have hshape : hasShape (QLearningAgent.init nstates actions lr df rng).qtable
      nstates actions.length := by
    constructor
    · simp [QLearningAgent.init]
    · intro row hmem
      rw [List.eq_of_mem_replicate hmem]
      simp
  refine ⟨hshape, ?_, hasShape_applyOps _ _ _ ops hshape⟩
  intro row hmem x hx
  rw [List.eq_of_mem_replicate hmem] at hx
  exact List.eq_of_mem_replicate hx

/-- C2: the training-loop body calls `update_qtable` after every `step`,
also when that step produced `done = true`, and the bootstrap term of the
update is `γ · max_a' Q(next_state, a')`, computed from the post-transition
state's Q-row — it is not zeroed on terminal transitions. -/
theorem trainingStep_terminal_bootstrap (ag : QLearningAgent) (state : ℕ)
    (eps : ℚ) (stepFn : ℕ → ℕ → ℕ × ℚ × Bool) (ns : ℕ) (r : ℚ)
    (hs : state < ag.qtable.length)
    (ha : (ag.get_action state eps).1 < (ag.qtable.getD state []).length)
    (hstep : stepFn state ((ag.get_action state eps).1) = (ns, r, true)) :
    (trainingStep ag state eps stepFn).1
      = ((ag.get_action state eps).2).update_qtable state ns
          ((ag.get_action state eps).1) r ∧
    (((trainingStep ag state eps stepFn).1).qtable.getD state []).getD
        ((ag.get_action state eps).1) 0
      = (ag.qtable.getD state []).getD ((ag.get_action state eps).1) 0
        + ag.learning_rate * (r + ag.discount_factor * npMax (ag.qtable.getD ns [])
          - (ag.qtable.getD state []).getD ((ag.get_action state eps).1) 0) := by
  have h1 : (trainingStep ag state eps stepFn).1
      = ((ag.get_action state eps).2).update_qtable state ns
          ((ag.get_action state eps).1) r := by
    show ((ag.get_action state eps).2).update_qtable state
        (stepFn state ((ag.get_action state eps).1)).1
        ((ag.get_action state eps).1)
        (stepFn state ((ag.get_action state eps).1)).2.1 = _
    rw [hstep]
  refine ⟨h1, ?_⟩
  rw [h1]
  obtain ⟨hq, -, hlr, hdf⟩ := get_action_fields ag state eps
  have := (update_qtable_formula ((ag.get_action state eps).2) state ns
    ((ag.get_action state eps).1) r (by rw [hq]; exact hs) (by rw [hq]; exact ha)).1
  rw [hq, hlr, hdf] at this
  exact this

/-- Invariant of the `np.argmax` scanning loop: if `bi` indexes a maximal
element of the prefix `acc` and every entry before `bi` is strictly below
it, then the final index is a lowest-index argmax of `acc ++ xs`. -/
theorem argmaxAux_spec (xs : List ℚ) :
    ∀ (acc : List ℚ) (bi : ℕ), bi < acc.length →
    (∀ j, j < acc.length → acc.getD j 0 ≤ acc.getD bi 0) →
    (∀ j, j < bi → acc.getD j 0 < acc.getD bi 0) →
    argmaxAux xs acc.length bi (acc.getD bi 0) < (acc ++ xs).length ∧
    (∀ j, j < (acc ++ xs).length → (acc ++ xs).getD j 0
      ≤ (acc ++ xs).getD (argmaxAux xs acc.length bi (acc.getD bi 0)) 0) ∧
    (∀ j, j < argmaxAux xs acc.length bi (acc.getD bi 0) →
      (acc ++ xs).getD j 0
        < (acc ++ xs).getD (argmaxAux xs acc.length bi (acc.getD bi 0)) 0) := by
  induction xs with
  | nil =>
      intro acc bi hbi hmax hlt
      simp only [argmaxAux, List.append_nil]
      exact ⟨hbi, hmax, hlt⟩
  | cons x xs ih =>
      intro acc bi hbi hmax hlt
      have hlen : (acc ++ [x]).length = acc.length + 1 := by simp
      have hx : (acc ++ [x]).getD acc.length 0 = x := by
        rw [List.getD_append_right _ _ _ _ (le_refl _)]
        simp
      have hbv : (acc ++ [x]).getD bi 0 = acc.getD bi 0 :=
        List.getD_append _ _ _ _ hbi
      have hmem : ∀ j, j < acc.length → (acc ++ [x]).getD j 0 = acc.getD j 0 :=
        fun j hj => List.getD_append _ _ _ _ hj
      have hassoc : (acc ++ [x]) ++ xs = acc ++ x :: xs := by simp
      have heq : argmaxAux (x :: xs) acc.length bi (acc.getD bi 0)
          = if acc.getD bi 0 < x then argmaxAux xs (acc.length + 1) acc.length x
            else argmaxAux xs (acc.length + 1) bi (acc.getD bi 0) := rfl
      rw [heq]
      by_cases h : acc.getD bi 0 < x
      · rw [if_pos h]
        have hmax' : ∀ j, j < (acc ++ [x]).length →
            (acc ++ [x]).getD j 0 ≤ (acc ++ [x]).getD acc.length 0 := by
          intro j hj
          rw [hx]
          rw [hlen] at hj
          rcases Nat.lt_or_ge j acc.length with hj' | hj'
          · rw [hmem j hj']
            exact le_of_lt (lt_of_le_of_lt (hmax j hj') h)
          · have hje : j = acc.length := by omega
            subst hje
            rw [hx]
        have hlt' : ∀ j, j < acc.length →
            (acc ++ [x]).getD j 0 < (acc ++ [x]).getD acc.length 0 := by
          intro j hj
          rw [hx, hmem j hj]
          exact lt_of_le_of_lt (hmax j hj) h
        have H := ih (acc ++ [x]) acc.length (by simp) hmax' hlt'
        rw [hx, hlen, hassoc] at H
        exact H
      · rw [if_neg h]
        have hbi' : bi < (acc ++ [x]).length := by
          rw [hlen]; omega
        have hmax' : ∀ j, j < (acc ++ [x]).length →
            (acc ++ [x]).getD j 0 ≤ (acc ++ [x]).getD bi 0 := by
          intro j hj
          rw [hbv]
          rw [hlen] at hj
          rcases Nat.lt_or_ge j acc.length with hj' | hj'
          · rw [hmem j hj']
            exact hmax j hj'
          · have hje : j = acc.length := by omega
            subst hje
            rw [hx]
            exact le_of_not_lt h
        have hlt' : ∀ j, j < bi → (acc ++ [x]).getD j 0 < (acc ++ [x]).getD bi 0 := by
          intro j hj
          rw [hbv, hmem j (lt_trans hj hbi)]
          exact hlt j hj
        have H := ih (acc ++ [x]) bi hbi' hmax' hlt'
        rw [hbv, hlen, hassoc] at H
        exact H

/-- `np.argmax` of a nonempty array is the lowest-index argmax: the entry
there is maximal, and every earlier entry is strictly smaller. -/
theorem npArgmax_spec (l : List ℚ) (hl : l ≠ []) :
    npArgmax l < l.length ∧
    (∀ j, j < l.length → l.getD j 0 ≤ l.getD (npArgmax l) 0) ∧
    (∀ j, j < npArgmax l → l.getD j 0 < l.getD (npArgmax l) 0) := by
  cases l with
  | nil => exact absurd rfl hl
  | cons x xs =>
      have h := argmaxAux_spec xs [x] 0 (by simp)
        (by
          intro j hj
          simp only [List.length_singleton, Nat.lt_one_iff] at hj
          subst hj
          exact le_refl _)
        (by intro j hj; exact absurd hj (Nat.not_lt_zero j))
      simpa [npArgmax] using h

/-- The action returned in the exploration branch (`u < epsilon`). -/
theorem get_action_explore (ag : QLearningAgent) (state : ℕ) (eps : ℚ)
    (h : ag.rng.stream ag.rng.pos < eps) :
    (ag.get_action state eps).1
      = ag.actions.getD
          (⌊ag.rng.stream (ag.rng.pos + 1) * (ag.actions.length : ℚ)⌋).toNat 0 := by
  simp [QLearningAgent.get_action, RNG.next, h]

/-- The action returned in the exploitation branch (`¬ u < epsilon`). -/
theorem get_action_exploit (ag : QLearningAgent) (state : ℕ) (eps : ℚ)
    (h : ¬ ag.rng.stream ag.rng.pos < eps) :
    (ag.get_action state eps).1 = npArgmax (ag.qtable.getD state []) := by
  simp [QLearningAgent.get_action, RNG.next, h]

/-- C3: `get_action(state, epsilon)` explores exactly when the uniform draw
`u` falls below `epsilon` (an event of probability `epsilon` for uniform
`u`), in which case it returns the uniformly selected element
`actions[⌊v·|actions|⌋]` of the action set; otherwise it returns the action
with the highest value in the Q-table row for `state`, breaking ties by the
lowest action index; with `epsilon = 0` the draw can never be below
`epsilon`, so the result is deterministically that lowest-index argmax. -/
theorem get_action_selection (ag : QLearningAgent) (state : ℕ) (eps : ℚ)
    (hrow : ag.qtable.getD state [] ≠ [])
    (hu : 0 ≤ ag.rng.stream ag.rng.pos) :
    (ag.rng.stream ag.rng.pos < eps →
      (ag.get_action state eps).1
        = ag.actions.getD
            (⌊ag.rng.stream (ag.rng.pos + 1) * (ag.actions.length : ℚ)⌋).toNat 0) ∧
    (¬ ag.rng.stream ag.rng.pos < eps →
      (ag.get_action state eps).1 = npArgmax (ag.qtable.getD state []) ∧
      (ag.get_action state eps).1 < (ag.qtable.getD state []).length ∧
      (∀ j, j < (ag.qtable.getD state []).length →
        (ag.qtable.getD state []).getD j 0
          ≤ (ag.qtable.getD state []).getD ((ag.get_action state eps).1) 0) ∧
      (∀ j, j < (ag.get_action state eps).1 →
        (ag.qtable.getD state []).getD j 0
          < (ag.qtable.getD state []).getD ((ag.get_action state eps).1) 0)) ∧
    (eps = 0 → (ag.get_action state eps).1 = npArgmax (ag.qtable.getD state [])) := by
  refine ⟨fun h => get_action_explore ag state eps h, fun h => ?_, fun heps => ?_⟩
  · have hres := get_action_exploit ag state eps h
    have hspec := npArgmax_spec (ag.qtable.getD state []) hrow
    rw [← hres] at hspec
    exact ⟨hres, hspec⟩
  · refine get_action_exploit ag state eps ?_
    rw [heps]
    exact not_lt.mpr hu

/-- Witness for C3 at a concrete agent, using the `epsilon = 0` branch. -/
theorem get_action_selection_witness :
    testAgent.qtable.getD 0 [] ≠ [] ∧
    (0 : ℚ) ≤ testAgent.rng.stream testAgent.rng.pos ∧
    (testAgent.get_action 0 0).1 = npArgmax (testAgent.qtable.getD 0 []) :=
  ⟨by decide, by norm_num [testAgent, testRng],
    (get_action_selection testAgent 0 0 (by decide)
      (by norm_num [testAgent, testRng])).2.2 rfl⟩

/-- C10: when the agent is constructed with `actions = arange(n)`, `n ≥ 1`
(as in every use in the notebook), and the Q-row for the state has length
`n`, `get_action` returns an action in `{0, …, n−1}` — the exploration
branch because the chosen index into `arange(n)` is valid and the array
equals its own index range, the exploitation branch because `np.argmax` of
a length-`n` row is below `n`. -/
theorem get_action_returns_valid_action (ag : QLearningAgent) (n state : ℕ)
    (eps : ℚ) (hact : ag.actions = List.range n) (hn : 1 ≤ n)
    (hrowlen : (ag.qtable.getD state []).length = n)
    (hstream : ∀ k, 0 ≤ ag.rng.stream k ∧ ag.rng.stream k < 1) :
    (ag.get_action state eps).1 < n := by
  by_cases h : ag.rng.stream ag.rng.pos < eps
  · rw [get_action_explore ag state eps h, hact, List.length_range]
    obtain ⟨h0, h1⟩ := hstream (ag.rng.pos + 1)
    have hnpos : (0 : ℚ) < n := by
      exact_mod_cast Nat.lt_of_lt_of_le Nat.zero_lt_one hn
    have hnn : (0 : ℚ) ≤ ag.rng.stream (ag.rng.pos + 1) * n :=
      mul_nonneg h0 (le_of_lt hnpos)
    have hlt : ag.rng.stream (ag.rng.pos + 1) * (n : ℚ) < n := by
      calc ag.rng.stream (ag.rng.pos + 1) * (n : ℚ)
          < 1 * n := mul_lt_mul_of_pos_right h1 hnpos
        _ = n := one_mul _
    have hfl : ⌊ag.rng.stream (ag.rng.pos + 1) * (n : ℚ)⌋ < (n : ℤ) :=
      Int.floor_lt.mpr (by exact_mod_cast hlt)
    have hfl0 : 0 ≤ ⌊ag.rng.stream (ag.rng.pos + 1) * (n : ℚ)⌋ :=
      Int.floor_nonneg.mpr hnn
    have hidx : (⌊ag.rng.stream (ag.rng.pos + 1) * (n : ℚ)⌋).toNat < n := by omega
    rw [List.getD_eq_getElem _ _ (by simpa using hidx)]
    simpa using hidx
  · rw [get_action_exploit ag state eps h]
    have hrow : ag.qtable.getD state [] ≠ [] := by
      intro hnil
      rw [hnil] at hrowlen
      simp at hrowlen
      omega
    have := (npArgmax_spec (ag.qtable.getD state []) hrow).1
    omega

/-- Witness for C10 at a concrete agent with `n = 2`. -/
theorem get_action_returns_valid_action_witness :
    testAgent.actions = List.range 2 ∧ 1 ≤ 2 ∧
    (testAgent.qtable.getD 0 []).length = 2 ∧
    (∀ k, 0 ≤ testAgent.rng.stream k ∧ testAgent.rng.stream k < 1) ∧
    (testAgent.get_action 0 0).1 < 2 :=
  ⟨by decide, by decide, by decide,
    fun k => by constructor <;> norm_num [testAgent, testRng],
    get_action_returns_valid_action testAgent 2 0 0 (by decide) (by decide)
      (by decide)
      (fun k => by constructor <;> norm_num [testAgent, testRng])⟩

/-- Witness for C2 at a concrete agent, exploration rate 0, and an
environment whose every transition is terminal. -/
theorem trainingStep_terminal_bootstrap_witness :
    0 < testAgent.qtable.length ∧
    (testAgent.get_action 0 0).1 < (testAgent.qtable.getD 0 []).length ∧
    (fun _ _ => ((1 : ℕ), (10 : ℚ), true)) 0 ((testAgent.get_action 0 0).1)
      = (1, 10, true) ∧
    (trainingStep testAgent 0 0 (fun _ _ => (1, 10, true))).1
      = ((testAgent.get_action 0 0).2).update_qtable 0 1
          ((testAgent.get_action 0 0).1) 10 :=
  ⟨by decide,
    by norm_num [QLearningAgent.get_action, testAgent, testRng, RNG.next,
      npArgmax, argmaxAux],
    rfl,
    (trainingStep_terminal_bootstrap testAgent 0 0 (fun _ _ => (1, 10, true)) 1 10
      (by decide)
      (by norm_num [QLearningAgent.get_action, testAgent, testRng, RNG.next,
        npArgmax, argmaxAux])
      rfl).1⟩

/-- C4: `reset(seed)` determines the environment completely — the random
generator is reseeded from `seed` alone and the state is set to the start
cell — so two runs with the same grid, the same seed and the same action
sequence produce identical `(state, reward, done)` traces, whatever the
environments' generator and state were before the reset. -/
theorem reset_trace_deterministic (e1 e2 : OfficeEnv) (seed : ℕ)
    (acts : List ℕ) (hg : e1.grid = e2.grid) :
    (e1.reset seed).1 = (e2.reset seed).1 ∧
    ((e1.reset seed).2).runTrace acts = ((e2.reset seed).2).runTrace acts := by
  obtain ⟨g1, r1, s1⟩ := e1
  obtain ⟨g2, r2, s2⟩ := e2
  cases hg
  exact ⟨rfl, rfl⟩

/-- Witness for C4: two concrete environments over the same grid with
different generators and current states agree after `reset(7)`. -/
theorem reset_trace_deterministic_witness :
    testEnv1.grid = testEnv2.grid ∧
    ((testEnv1.reset 7).2).runTrace [1, 3, 0, 2]
      = ((testEnv2.reset 7).2).runTrace [1, 3, 0, 2] :=
  ⟨rfl, (reset_trace_deterministic testEnv1 testEnv2 7 [1, 3, 0, 2] rfl).2⟩

/-- The loop over the never-done environment reports done under no fuel. -/
theorem episodeLoop_stuckStep (policy : ℕ → ℕ) :
    ∀ (fuel s : ℕ) (acc : ℚ),
      (episodeLoop stuckStep policy fuel s acc).2.2 = false := by
  intro fuel
  induction fuel with
  | zero => intro s acc; rfl
  | succ fuel ih =>
      intro s acc
      show (episodeLoop stuckStep policy fuel s (acc + -1)).2.2 = false
      exact ih s (acc + -1)

/-- C5 counterexample: the notebook's episode loop has no step cap — run
against an environment that never reports done (a cyclic policy that only
ever bumps), no number of iterations ever finishes the episode, so the
claimed guaranteed termination fails. -/
theorem episodeLoop_no_cap_counterexample :
    ¬ ∃ fuel, (episodeLoop stuckStep (fun _ => 0) fuel 0 0).2.2 = true := by
  rintro ⟨fuel, h⟩
  rw [episodeLoop_stuckStep (fun _ => 0) fuel 0 0] at h
  exact Bool.false_ne_true h

/-- C5 (amended): the notebook's episode loops run exactly until `done` is
true, with no step cap: if the environment reports done within the given
number of iterations the loop exits with `done = true`, and if the
environment never reports done the loop is still running after any number
of iterations. -/
theorem episodeLoop_runs_until_done :
    (∀ (stepFn : ℕ → ℕ → ℕ × ℚ × Bool) (policy : ℕ → ℕ) (s : ℕ) (acc : ℚ)
      (fuel : ℕ), (∃ j, j < fuel ∧ doneAt stepFn policy s j = true) →
      (episodeLoop stepFn policy fuel s acc).2.2 = true) ∧
    (∀ (stepFn : ℕ → ℕ → ℕ × ℚ × Bool) (policy : ℕ → ℕ) (s : ℕ) (acc : ℚ)
      (fuel : ℕ), (∀ j, doneAt stepFn policy s j = false) →
      (episodeLoop stepFn policy fuel s acc).2.2 = false) := by
  constructor
  · intro stepFn policy s acc fuel
    induction fuel generalizing s acc with
    | zero =>
        rintro ⟨j, hj, -⟩
        exact absurd hj (Nat.not_lt_zero j)
    | succ fuel ih =>
        rintro ⟨j, hj, hd⟩
        by_cases h : (stepFn s (policy s)).2.2
        · simp [episodeLoop, h]
        · have hj0 : j ≠ 0 := by
            intro h0
            subst h0
            exact h (by simpa [doneAt, trajState] using hd)
          obtain ⟨j', rfl⟩ := Nat.exists_eq_succ_of_ne_zero hj0
          have hd' : doneAt stepFn policy (stepFn s (policy s)).1 j' = true := hd
          simp only [episodeLoop, h, if_false, Bool.false_eq_true]
          exact ih _ _ ⟨j', by omega, hd'⟩
  · intro stepFn policy s acc fuel
    induction fuel generalizing s acc with
    | zero => intro _; rfl
    | succ fuel ih =>
        intro hdone
        have h0 : (stepFn s (policy s)).2.2 = false := by
          simpa [doneAt, trajState] using hdone 0
        simp only [episodeLoop, h0, Bool.false_eq_true, if_false]
        exact ih _ _ (fun j => hdone (j + 1))

/-- Witness for C5 (amended): a terminating environment whose second step
is terminal exits the loop with done, and the never-done environment is
still running after 7 iterations. -/
theorem episodeLoop_runs_until_done_witness :
    (∃ j, j < 5 ∧ doneAt countStep (fun _ => 0) 0 j = true) ∧
    (episodeLoop countStep (fun _ => 0) 5 0 0).2.2 = true ∧
    (∀ j, doneAt stuckStep (fun _ => 0) 0 j = false) ∧
    (episodeLoop stuckStep (fun _ => 0) 7 0 0).2.2 = false :=
  ⟨⟨1, by omega, by decide⟩,
    episodeLoop_runs_until_done.1 countStep (fun _ => 0) 0 0 5
      ⟨1, by omega, by decide⟩,
    fun _ => rfl,
    episodeLoop_runs_until_done.2 stuckStep (fun _ => 0) 0 0 7 (fun _ => rfl)⟩
